import Mathlib

/-
Verification development for the story-tree container in `tree.h`.

The C++ code is shallowly embedded as follows:
  * `Node` mirrors `Node<U>` (id, data, children).  Child pointers
    (`Node<U>*`) are modelled as heap addresses (`Addr := Nat`).
  * `Tree` mirrors `Tree<T>`: the `root` pointer is an optional address,
    the `unordered_map<string, Node<T>*> nodesMap` is an association list
    from id to address, and dynamically allocated nodes live in an
    explicit `heap` association list from address to `Node`.  `nextAddr`
    is the next fresh address handed out by `new`; address 0 plays the
    role of the null pointer, so allocation starts at address 1.
  * The generic payload type `T` is a type parameter `α`; the
    default-constructed payload `T()` used for auto-materialised parents
    is `default` from an `Inhabited` instance, and the stream conversion
    used for printing is an explicit function `fmt : α → String`
    (for `T = std::string` it is the identity).
  * Output is modelled as the list of emitted text chunks, and
    `std::getline` as consuming a list of input lines.
-/

namespace StoryTree

/-- Address of a heap-allocated node; `0` models the null pointer. -/
abbrev Addr : Type := Nat

/-- Embedding of `Node<U>` from tree.h: id, payload, ordered child pointers. -/
structure Node (α : Type) where
  id : String
  data : α
  children : List Addr
deriving Repr, DecidableEq

/-- Characters accepted by `isspace` in the "C" locale, as used by `trim_copy`. -/
def isSpaceChar (c : Char) : Bool :=
  c = ' ' || c = '\t' || c = '\n' || c = '\x0b' || c = '\x0c' || c = '\r'

/-- Embedding of the helper `trim_copy`: strip leading and trailing whitespace. -/
def trim_copy (s : String) : String :=
  String.mk (((s.toList.dropWhile isSpaceChar).reverse.dropWhile isSpaceChar).reverse)

/-- Characters accepted by `isdigit` in the "C" locale. -/
def isDigitChar (c : Char) : Bool :=
  '0' ≤ c && c ≤ '9'

/-- Numeric value of a string of decimal digits (the value `stoi`/`stoll`
compute before their range check). -/
def digitsVal (s : String) : Nat :=
  s.toList.foldl (fun acc c => acc * 10 + (c.toNat - '0'.toNat)) 0

/-- Lexicographic "less or equal" on character lists, the order used by
`std::string::operator<` (byte-wise lexicographic comparison). -/
def charsLeB : List Char → List Char → Bool
  | [], _ => true
  | _ :: _, [] => false
  | c :: cs, d :: ds => if c < d then true else if d < c then false else charsLeB cs ds

/-- Lexicographic "less or equal" on strings, as `std::string` compares. -/
def strLe (a b : String) : Bool :=
  charsLeB a.toList b.toList

/-- `INT_MAX` on the 32-bit `int` used by `stoi` in `playGame`. -/
def intMax : Nat := 2 ^ 31 - 1

/-- `LLONG_MAX`, the bound used by `stoll` in `printAll`. -/
def llongMax : Nat := 2 ^ 63 - 1

/-- Embedding of `Tree<T>`'s fields: root pointer, id-keyed registry of
node pointers, plus the explicit heap of allocated nodes. -/
structure Tree (α : Type) where
  root : Option Addr
  nodesMap : List (String × Addr)
  heap : List (Addr × Node α)
  nextAddr : Addr
deriving Repr, DecidableEq

/-- The freshly constructed `Tree()` : null root, empty registry. -/
def Tree.empty (α : Type) : Tree α :=
  { root := none, nodesMap := [], heap := [], nextAddr := 1 }

/-- Dereference a node pointer (total model of `*p`; unreachable for the
null/dangling case, which yields an inert default node). -/
def getNode {α : Type} [Inhabited α] (t : Tree α) (a : Addr) : Node α :=
  (t.heap.lookup a).getD ⟨"", default, []⟩

/-- In-place update of the node stored at address `a` (model of writing
through a `Node<T>*`). -/
def updEntry {α : Type} (f : Node α → Node α) (a : Addr) (h : List (Addr × Node α)) :
    List (Addr × Node α) :=
  h.map (fun q => if q.1 = a then (q.1, f q.2) else q)

/-- Embedding of `Tree::createRoot`: if the id exists its node's data is
overwritten and it becomes root, else a fresh node is allocated,
registered and made root. -/
def createRoot {α : Type} (t : Tree α) (id : String) (value : α) : Tree α :=
  match t.nodesMap.lookup id with
  | some a =>
      { root := some a
        nodesMap := t.nodesMap
        heap := updEntry (fun n => ⟨n.id, value, n.children⟩) a t.heap
        nextAddr := t.nextAddr }
  | none =>
      { root := some t.nextAddr
        nodesMap := (id, t.nextAddr) :: t.nodesMap
        heap := (t.nextAddr, ⟨id, value, []⟩) :: t.heap
        nextAddr := t.nextAddr + 1 }

/-- The "ensure node exists" blocks of `Tree::addNode`: look the id up and
reuse the node, or allocate a fresh node with payload `d` and register it.
Returns the node's address and the updated tree. -/
def ensureNode {α : Type} (t : Tree α) (id : String) (d : α) : Addr × Tree α :=
  match t.nodesMap.lookup id with
  | some a => (a, t)
  | none =>
      (t.nextAddr,
        { root := t.root
          nodesMap := (id, t.nextAddr) :: t.nodesMap
          heap := (t.nextAddr, ⟨id, d, []⟩) :: t.heap
          nextAddr := t.nextAddr + 1 })

/-- Embedding of `Tree::addNode`: ensure the parent exists (default data if
missing), ensure the child exists (given data if missing, existing data kept),
then push the child pointer onto the parent's children unless already present. -/
def addNode {α : Type} [Inhabited α] (t : Tree α) (parentID childID : String)
    (value : α) : Tree α :=
  let pr := ensureNode t parentID default
  let cr := ensureNode pr.2 childID value
  let t2 := cr.2
  let parent := getNode t2 pr.1
  if cr.1 ∈ parent.children then t2
  else { t2 with heap := updEntry (fun n => ⟨n.id, n.data, n.children ++ [cr.1]⟩) pr.1 t2.heap }

/-- Embedding of `Tree::findNode`: the registered node's pointer, or null. -/
def findNode {α : Type} (t : Tree α) (id : String) : Option Addr :=
  match t.nodesMap.lookup id with
  | some a => some a
  | none => none

/-- A construction call on the tree (the operations that mutate it). -/
inductive Op (α : Type) where
  | croot (id : String) (v : α)
  | add (p c : String) (v : α)
deriving Repr

/-- Apply one construction call. -/
def applyOp {α : Type} [Inhabited α] (t : Tree α) : Op α → Tree α
  | Op.croot id v => createRoot t id v
  | Op.add p c v => addNode t p c v

/-- Apply a sequence of construction calls. -/
def applyOps {α : Type} [Inhabited α] (t : Tree α) (ops : List (Op α)) : Tree α :=
  ops.foldl applyOp t

/-- The payload currently held by the node registered under `id`. -/
def payloadOf {α : Type} (t : Tree α) (id : String) : Option α :=
  (t.nodesMap.lookup id).bind (fun a => (t.heap.lookup a).map (fun n => n.data))

/-- The sequence of pointers deleted by `Tree::~Tree` (one `delete p.second`
per registry entry). -/
def destroyedAddrs {α : Type} (t : Tree α) : List Addr :=
  t.nodesMap.map (fun p => p.2)

/-- Sort key computed by `printAll`: for an all-digit id, `stoll`'s value,
with overflow caught and replaced by `LLONG_MAX`; all other ids get
`LLONG_MAX`. -/
def isNumericId (s : String) : Bool :=
  s ≠ "" && s.toList.all isDigitChar

/-- Numeric sort key of an id, as computed in `printAll`. -/
def idKey (s : String) : Nat :=
  if isNumericId s then (if digitsVal s ≤ llongMax then digitsVal s else llongMax)
  else llongMax

/-- The comparison given by `charsLeB` is total. -/
theorem charsLeB_total : ∀ x y : List Char, charsLeB x y = true ∨ charsLeB y x = true
  | [], _ => Or.inl rfl
  | _ :: _, [] => Or.inr rfl
  | c :: cs, d :: ds => by
      rcases lt_trichotomy c d with h | h | h
      · exact Or.inl (by simp [charsLeB, h])
      · subst h
        rcases charsLeB_total cs ds with h' | h'
        · exact Or.inl (by simp [charsLeB, h'])
        · exact Or.inr (by simp [charsLeB, h'])
      · exact Or.inr (by simp [charsLeB, h])

/-- The comparison given by `charsLeB` is transitive. -/
theorem charsLeB_trans : ∀ x y z : List Char,
    charsLeB x y = true → charsLeB y z = true → charsLeB x z = true
  | [], _, _, _, _ => rfl
  | _ :: _, [], _, h1, _ => by simp [charsLeB] at h1
  | _ :: _, _ :: _, [], _, h2 => by simp [charsLeB] at h2
  | c :: cs, d :: ds, e :: es, h1, h2 => by
      simp only [charsLeB] at h1 h2 ⊢
      by_cases hcd : c < d
      · simp only [hcd, if_true] at h1
        by_cases hde : d < e
        · simp [lt_trans hcd hde]
        · by_cases hed : e < d
          · simp [hde, hed] at h2
          · have : d = e := le_antisymm (not_lt.mp hed) (not_lt.mp hde)
            subst this
            simp [hcd]
      · by_cases hdc : d < c
        · simp [hcd, hdc] at h1
        · have hcd' : c = d := le_antisymm (not_lt.mp hdc) (not_lt.mp hcd)
          subst hcd'
          simp only [hcd, if_false, lt_irrefl] at h1
          by_cases hde : c < e
          · simp [hde]
          · by_cases hed : e < c
            · simp [hde, hed] at h2
            · have : c = e := le_antisymm (not_lt.mp hed) (not_lt.mp hde)
              subst this
              simp only [lt_irrefl, if_false] at h2 ⊢
              exact charsLeB_trans cs ds es h1 h2

/-- The order imposed by `printAll`'s comparator (its reflexive closure:
`a` may precede `b` iff the comparator does not demand `b` before `a`). -/
def entryR (a b : String × Nat) : Prop :=
  a.2 < b.2 ∨ (a.2 = b.2 ∧ strLe a.1 b.1 = true)

instance : DecidableRel entryR := fun a b =>
  inferInstanceAs (Decidable (a.2 < b.2 ∨ (a.2 = b.2 ∧ strLe a.1 b.1 = true)))

instance : IsTotal (String × Nat) entryR where
  total a b := by
    rcases Nat.lt_trichotomy a.2 b.2 with h | h | h
    · exact Or.inl (Or.inl h)
    · rcases charsLeB_total a.1.toList b.1.toList with h' | h'
      · exact Or.inl (Or.inr ⟨h, h'⟩)
      · exact Or.inr (Or.inr ⟨h.symm, h'⟩)
    · exact Or.inr (Or.inl h)

instance : IsTrans (String × Nat) entryR where
  trans a b c hab hbc := by
    rcases hab with h1 | ⟨h1, h1'⟩
    · rcases hbc with h2 | ⟨h2, _⟩
      · exact Or.inl (h1.trans h2)
      · exact Or.inl (h2 ▸ h1)
    · rcases hbc with h2 | ⟨h2, h2'⟩
      · exact Or.inl (h1 ▸ h2)
      · exact Or.inr ⟨h1.trans h2, charsLeB_trans _ _ _ h1' h2'⟩

/-- The `(id, key)` pairs of `printAll`, in the sorted order it emits them.
The C++ `std::sort` with the strict comparator is modelled by a sort that
is correct for the same order; since registry ids are distinct, elements
tied under the comparator are identical and the sorted list is unique. -/
def sortedEntries {α : Type} (t : Tree α) : List (String × Nat) :=
  List.insertionSort entryR ((t.nodesMap.map (fun p => p.1)).map (fun s => (s, idKey s)))

/-- The order in which `printAll` emits the registry ids. -/
def printAllIds {α : Type} (t : Tree α) : List String :=
  (sortedEntries t).map (fun p => p.1)

/-- Model of `unordered_map::operator[]`: returns the mapped pointer, and
on a missing key value-initialises (null pointer) and inserts it. -/
def mapBracket (m : List (String × Addr)) (id : String) : Addr × List (String × Addr) :=
  match m.lookup id with
  | some a => (a, m)
  | none => (0, m ++ [(id, 0)])

/-- Body of `printAll`'s output loop over the sorted entries, threading the
tree through the `nodesMap[id]` accesses. -/
def printAllLoop {α : Type} [Inhabited α] (fmt : α → String) :
    List (String × Nat) → Tree α → List String → List String × Tree α
  | [], t, acc => (acc, t)
  | e :: rest, t, acc =>
      let br := mapBracket t.nodesMap e.1
      let t' := { t with nodesMap := br.2 }
      let node := getNode t' br.1
      let dataStr := trim_copy (fmt node.data)
      let childLines :=
        if node.children.isEmpty then ["  Child -> (none)"]
        else node.children.map (fun ca => "  Child -> " ++ (getNode t' ca).id)
      printAllLoop fmt rest t'
        (acc ++ ("Node " ++ e.1 ++ ": " ++ dataStr) :: childLines ++ [""])

/-- Embedding of `Tree::printAll`: emitted text chunks plus the tree as it
stands afterwards. -/
def printAll {α : Type} [Inhabited α] (fmt : α → String) (t : Tree α) :
    List String × Tree α :=
  if t.nodesMap.isEmpty then (["Tree is empty."], t)
  else
    let r := printAllLoop fmt (sortedEntries t) t []
    ("===== Story Tree =====" :: r.1 ++ ["======================"], r.2)

/-- The node text plus the numbered choice menu and selection prompt that
`playGame` emits on entering a node that has children. -/
def nodeHeader {α : Type} [Inhabited α] (fmt : α → String) (t : Tree α) (cur : Addr) :
    List String :=
  let node := getNode t cur
  trim_copy (fmt node.data) :: "Choose your next action:" ::
    (node.children.enum.map
      (fun p => toString (p.1 + 1) ++ ". " ++ trim_copy (fmt (getNode t p.2).data)))
    ++ ["Selection: "]

/-- Embedding of `playGame`'s while-loop, at node `cur`, with the remaining
input lines.  Returns the emitted text chunks and the tree afterwards.
The loop first prints the node and breaks on a childless node; otherwise it
prints the menu and consumes one line (end of input terminates the loop),
so it recurses on the input list. -/
def playLoop {α : Type} [Inhabited α] (fmt : α → String) (t : Tree α) :
    List String → Addr → List String × Tree α
  | [], cur =>
      let node := getNode t cur
      if node.children.isEmpty then
        ([trim_copy (fmt node.data), "There are no further paths.",
          "Your journey ends here.", ""], t)
      else
        (nodeHeader fmt t cur ++ ["", "Input error or EOF. Ending adventure."], t)
  | line :: rest, cur =>
      let node := getNode t cur
      if node.children.isEmpty then
        ([trim_copy (fmt node.data), "There are no further paths.",
          "Your journey ends here.", ""], t)
      else
        let inp := trim_copy line
        if inp = "" then
          let r := playLoop fmt t rest cur
          (nodeHeader fmt t cur ++
            "Please enter a number corresponding to your choice." :: r.1, r.2)
        else if !(inp.toList.all isDigitChar) then
          let r := playLoop fmt t rest cur
          (nodeHeader fmt t cur ++
            "Invalid selection. Please enter a number." :: r.1, r.2)
        else if digitsVal inp > intMax then
          let r := playLoop fmt t rest cur
          (nodeHeader fmt t cur ++
            "Invalid selection. Please enter a valid number." :: r.1, r.2)
        else if digitsVal inp < 1 ∨ digitsVal inp > node.children.length then
          let r := playLoop fmt t rest cur
          (nodeHeader fmt t cur ++
            "Choice out of range. Please select a valid option." :: r.1, r.2)
        else
          let r := playLoop fmt t rest (node.children.getD (digitsVal inp - 1) 0)
          (nodeHeader fmt t cur ++ "" :: r.1, r.2)

/-- Embedding of `Tree::playGame`: the whole interactive session. -/
def playGame {α : Type} [Inhabited α] (fmt : α → String) (t : Tree α)
    (inputs : List String) : List String × Tree α :=
  match t.root with
  | none => (["No root node. Cannot play game."], t)
  | some r =>
      let res := playLoop fmt t inputs r
      (["===== Begin Adventure =====", ""] ++ res.1 ++
        ["===== Adventure Complete ====="], res.2)

section AssocLemmas

variable {κ β : Type} [BEq κ] [LawfulBEq κ] [DecidableEq κ]

/-- Resolve one step of `List.lookup` into an `if`. -/
theorem lookup_cons_eq (k k' : κ) (v : β) (l : List (κ × β)) :
    List.lookup k ((k', v) :: l) = if k = k' then some v else l.lookup k := by
  simp only [List.lookup_cons]
  by_cases h : k = k'
  · subst h; simp
  · simp [beq_eq_false_iff_ne.mpr h, h]

/-- A key looks up to `none` exactly when it is not among the stored keys. -/
theorem lookup_eq_none_iff (l : List (κ × β)) (k : κ) :
    l.lookup k = none ↔ k ∉ l.map Prod.fst := by
  induction l with
  | nil => simp
  | cons p rest ih =>
      obtain ⟨k', v⟩ := p
      rw [lookup_cons_eq]
      by_cases h : k = k'
      · subst h; simp
      · simp [h, ih]

/-- A key looks up to `some` exactly when it is among the stored keys. -/
theorem lookup_isSome_iff (l : List (κ × β)) (k : κ) :
    (l.lookup k).isSome ↔ k ∈ l.map Prod.fst := by
  induction l with
  | nil => simp
  | cons p rest ih =>
      obtain ⟨k', v⟩ := p
      rw [lookup_cons_eq]
      by_cases h : k = k'
      · subst h; simp
      · simp [h, ih]

/-- A successful lookup is a genuine binding of the list. -/
theorem lookup_mem {l : List (κ × β)} {k : κ} {v : β}
    (h : l.lookup k = some v) : (k, v) ∈ l := by
  induction l with
  | nil => simp at h
  | cons p rest ih =>
      obtain ⟨k', v'⟩ := p
      rw [lookup_cons_eq] at h
      by_cases hk : k = k'
      · subst hk
        rw [if_pos rfl] at h
        obtain rfl := Option.some.inj h
        exact List.mem_cons_self _ _
      · exact List.mem_cons_of_mem _ (ih (by simpa [hk] using h))

/-- With distinct keys, every binding is found by lookup. -/
theorem lookup_of_mem_nodup {l : List (κ × β)} {k : κ} {v : β}
    (nd : (l.map Prod.fst).Nodup) (h : (k, v) ∈ l) : l.lookup k = some v := by
  induction l with
  | nil => simp at h
  | cons p rest ih =>
      obtain ⟨k', v'⟩ := p
      simp only [List.map_cons, List.nodup_cons] at nd
      rw [lookup_cons_eq]
      rcases List.mem_cons.mp h with h' | h'
      · obtain ⟨rfl, rfl⟩ := Prod.mk.inj h'
        simp
      · by_cases hk : k = k'
        · subst hk
          exact absurd (List.mem_map.mpr ⟨(k, v), h', rfl⟩) nd.1
        · simp [hk, ih nd.2 h']

end AssocLemmas

/-- A value is among the stored values exactly when some key binds it. -/
theorem mem_map_snd_iff {κ β : Type} (l : List (κ × β)) (v : β) :
    v ∈ l.map Prod.snd ↔ ∃ k, (k, v) ∈ l := by
  rw [List.mem_map]
  constructor
  · rintro ⟨⟨k, v'⟩, hm, rfl⟩; exact ⟨k, hm⟩
  · rintro ⟨k, hm⟩; exact ⟨(k, v), hm, rfl⟩

/-- Unfold one step of `updEntry`. -/
theorem updEntry_cons {α : Type} (f : Node α → Node α) (a k : Addr) (n : Node α)
    (rest : List (Addr × Node α)) :
    updEntry f a ((k, n) :: rest) =
      (if k = a then (k, f n) else (k, n)) :: updEntry f a rest := rfl

/-- Lookup in an updated heap: the node at the updated address is
transformed, every other address is untouched. -/
theorem lookup_updEntry {α : Type} (f : Node α → Node α) (a b : Addr)
    (h : List (Addr × Node α)) :
    (updEntry f a h).lookup b =
      if b = a then (h.lookup b).map f else h.lookup b := by
  induction h with
  | nil => simp [updEntry]
  | cons q rest ih =>
      obtain ⟨k, n⟩ := q
      rw [updEntry_cons]
      by_cases hk : k = a
      · subst hk
        by_cases hb : b = k
        · subst hb
          simp [lookup_cons_eq]
        · simp [lookup_cons_eq, hb, ih]
      · by_cases hb : b = k
        · subst hb
          simp [lookup_cons_eq, hk]
        · simp [lookup_cons_eq, hk, hb, ih]

/-- Updating a node in place does not change the heap's key sequence. -/
theorem map_fst_updEntry {α : Type} (f : Node α → Node α) (a : Addr)
    (h : List (Addr × Node α)) :
    (updEntry f a h).map Prod.fst = h.map Prod.fst := by
  induction h with
  | nil => rfl
  | cons q rest ih =>
      obtain ⟨k, n⟩ := q
      rw [updEntry_cons]
      by_cases hk : k = a <;> simp [hk, ih]

/-- Well-formedness invariant of a `Tree` as maintained by the C++ class:
the registry's keys and pointers are duplicate-free, registry and heap
are mutually consistent, every allocated address is below the allocation
counter, and no children list holds the same pointer twice. -/
structure WF {α : Type} (t : Tree α) : Prop where
  keys_nodup : (t.nodesMap.map Prod.fst).Nodup
  addrs_nodup : (t.nodesMap.map Prod.snd).Nodup
  heapKeys_nodup : (t.heap.map Prod.fst).Nodup
  map_to_heap : ∀ {id a}, t.nodesMap.lookup id = some a →
    ∃ n, t.heap.lookup a = some n ∧ n.id = id
  heap_to_map : ∀ {a n}, t.heap.lookup a = some n → t.nodesMap.lookup n.id = some a
  heap_lt : ∀ {a}, (t.heap.lookup a).isSome → a < t.nextAddr
  children_nodup : ∀ {a n}, t.heap.lookup a = some n → n.children.Nodup

/-- Any address stored in the registry of a well-formed tree is allocated. -/
theorem WF.mapAddr_isSome {α : Type} {t : Tree α} (wf : WF t) {id : String} {a : Addr}
    (h : (id, a) ∈ t.nodesMap) : (t.heap.lookup a).isSome := by
  obtain ⟨n, hn, _⟩ := wf.map_to_heap (lookup_of_mem_nodup wf.keys_nodup h)
  simp [hn]

/-- Any address stored in the registry of a well-formed tree is below the
allocation counter. -/
theorem WF.mapAddr_lt {α : Type} {t : Tree α} (wf : WF t) {id : String} {a : Addr}
    (h : (id, a) ∈ t.nodesMap) : a < t.nextAddr :=
  wf.heap_lt (wf.mapAddr_isSome h)

/-- The freshly constructed tree is well formed. -/
theorem wf_empty (α : Type) : WF (Tree.empty α) := by
  constructor <;> (intros; first | trivial | simp_all [Tree.empty])

/-- Well-formedness does not depend on the root pointer. -/
theorem wf_root {α : Type} {t : Tree α} (wf : WF t) (r : Option Addr) :
    WF { t with root := r } :=
  ⟨wf.keys_nodup, wf.addrs_nodup, wf.heapKeys_nodup, wf.map_to_heap, wf.heap_to_map,
    wf.heap_lt, wf.children_nodup⟩

/-- Registering a fresh node under an unused id preserves well-formedness. -/
theorem wf_consFresh {α : Type} {t : Tree α} (wf : WF t) {id : String}
    (hid : t.nodesMap.lookup id = none) (r : Option Addr) (d : α) :
    WF { root := r
         nodesMap := (id, t.nextAddr) :: t.nodesMap
         heap := (t.nextAddr, ⟨id, d, []⟩) :: t.heap
         nextAddr := t.nextAddr + 1 } := by
  have hidk : id ∉ t.nodesMap.map Prod.fst := (lookup_eq_none_iff _ _).mp hid
  have hna_heap : t.nextAddr ∉ t.heap.map Prod.fst := by
    intro hmem
    exact absurd (wf.heap_lt ((lookup_isSome_iff _ _).mpr hmem)) (Nat.lt_irrefl _)
  have hna_map : t.nextAddr ∉ t.nodesMap.map Prod.snd := by
    intro hmem
    obtain ⟨i, hi⟩ := (mem_map_snd_iff _ _).mp hmem
    exact absurd (wf.mapAddr_lt hi) (Nat.lt_irrefl _)
  constructor
  · exact List.nodup_cons.mpr ⟨hidk, wf.keys_nodup⟩
  · exact List.nodup_cons.mpr ⟨hna_map, wf.addrs_nodup⟩
  · exact List.nodup_cons.mpr ⟨hna_heap, wf.heapKeys_nodup⟩
  · intro id' a h
    have h2 : List.lookup id' ((id, t.nextAddr) :: t.nodesMap) = some a := h
    rw [lookup_cons_eq] at h2
    by_cases h' : id' = id
    · subst h'
      rw [if_pos rfl] at h2
      obtain rfl := Option.some.inj h2
      refine ⟨⟨id', d, []⟩, ?_, rfl⟩
      show List.lookup t.nextAddr ((t.nextAddr, (⟨id', d, []⟩ : Node α)) :: t.heap)
        = some ⟨id', d, []⟩
      rw [lookup_cons_eq, if_pos rfl]
    · rw [if_neg h'] at h2
      obtain ⟨n, hn, hnid⟩ := wf.map_to_heap h2
      have hlt : a < t.nextAddr := wf.heap_lt (show (t.heap.lookup a).isSome by simp [hn])
      refine ⟨n, ?_, hnid⟩
      show List.lookup a ((t.nextAddr, (⟨id, d, []⟩ : Node α)) :: t.heap) = some n
      rw [lookup_cons_eq, if_neg (Nat.ne_of_lt hlt)]
      exact hn
  · intro a n h
    have h2 : List.lookup a ((t.nextAddr, (⟨id, d, []⟩ : Node α)) :: t.heap) = some n := h
    rw [lookup_cons_eq] at h2
    by_cases h' : a = t.nextAddr
    · rw [if_pos h'] at h2
      obtain rfl := Option.some.inj h2
      show List.lookup id ((id, t.nextAddr) :: t.nodesMap) = some a
      rw [lookup_cons_eq, if_pos rfl, h']
    · rw [if_neg h'] at h2
      have hm := wf.heap_to_map h2
      show List.lookup n.id ((id, t.nextAddr) :: t.nodesMap) = some a
      rw [lookup_cons_eq, if_neg ?_]
      · exact hm
      · intro heq
        rw [heq, hid] at hm
        exact Option.noConfusion hm
  · intro a h
    have h2 : (List.lookup a ((t.nextAddr, (⟨id, d, []⟩ : Node α)) :: t.heap)).isSome := h
    rw [lookup_cons_eq] at h2
    show a < t.nextAddr + 1
    by_cases h' : a = t.nextAddr
    · exact h' ▸ Nat.lt_succ_self _
    · rw [if_neg h'] at h2
      exact Nat.lt_succ_of_lt (wf.heap_lt h2)
  · intro a n h
    have h2 : List.lookup a ((t.nextAddr, (⟨id, d, []⟩ : Node α)) :: t.heap) = some n := h
    rw [lookup_cons_eq] at h2
    by_cases h' : a = t.nextAddr
    · rw [if_pos h'] at h2
      obtain rfl := Option.some.inj h2
      exact List.nodup_nil
    · rw [if_neg h'] at h2
      exact wf.children_nodup h2

/-- Updating one node in place preserves well-formedness, provided the
update keeps the node's id and keeps its children duplicate-free. -/
theorem wf_updEntry {α : Type} {t : Tree α} (wf : WF t) (a : Addr) (f : Node α → Node α)
    (hid : ∀ n, (f n).id = n.id)
    (hch : ∀ n, t.heap.lookup a = some n → (f n).children.Nodup) :
    WF { t with heap := updEntry f a t.heap } := by
  constructor
  · exact wf.keys_nodup
  · exact wf.addrs_nodup
  · show ((updEntry f a t.heap).map Prod.fst).Nodup
    rw [map_fst_updEntry]
    exact wf.heapKeys_nodup
  · intro id' a' h
    obtain ⟨n, hn, hnid⟩ := wf.map_to_heap h
    by_cases h' : a' = a
    · subst h'
      refine ⟨f n, ?_, by rw [hid n, hnid]⟩
      show (updEntry f a' t.heap).lookup a' = some (f n)
      rw [lookup_updEntry, if_pos rfl, hn]
      rfl
    · refine ⟨n, ?_, hnid⟩
      show (updEntry f a t.heap).lookup a' = some n
      rw [lookup_updEntry, if_neg h']
      exact hn
  · intro a' n' h
    have h2 : (updEntry f a t.heap).lookup a' = some n' := h
    rw [lookup_updEntry] at h2
    by_cases h' : a' = a
    · subst h'
      cases hn : t.heap.lookup a' with
      | none => rw [if_pos rfl, hn] at h2; exact Option.noConfusion h2
      | some n =>
          rw [if_pos rfl, hn] at h2
          obtain rfl := Option.some.inj h2
          show List.lookup (f n).id t.nodesMap = some a'
          rw [hid n]
          exact wf.heap_to_map hn
    · rw [if_neg h'] at h2
      exact wf.heap_to_map h2
  · intro a' h
    have h2 : ((updEntry f a t.heap).lookup a').isSome := h
    rw [lookup_updEntry] at h2
    show a' < t.nextAddr
    by_cases h' : a' = a
    · subst h'
      rw [if_pos rfl] at h2
      cases hn : t.heap.lookup a' with
      | none => rw [hn] at h2; exact absurd h2 (by simp)
      | some n => exact wf.heap_lt (show (t.heap.lookup a').isSome by simp [hn])
    · rw [if_neg h'] at h2
      exact wf.heap_lt h2
  · intro a' n' h
    have h2 : (updEntry f a t.heap).lookup a' = some n' := h
    rw [lookup_updEntry] at h2
    by_cases h' : a' = a
    · subst h'
      rw [if_pos rfl] at h2
      cases hn : t.heap.lookup a' with
      | none => rw [hn] at h2; exact Option.noConfusion h2
      | some n =>
          rw [hn] at h2
          obtain rfl := Option.some.inj h2
          exact hch n hn
    · rw [if_neg h'] at h2
      exact wf.children_nodup h2

/-- `createRoot` preserves well-formedness. -/
theorem wf_createRoot {α : Type} {t : Tree α} (wf : WF t) (id : String) (v : α) :
    WF (createRoot t id v) := by
  unfold createRoot
  split
  · next a h =>
      exact wf_root (wf_updEntry wf a (fun n => ⟨n.id, v, n.children⟩) (fun n => rfl)
        (fun n hn => (wf.children_nodup hn : n.children.Nodup))) (some a)
  · next h => exact wf_consFresh wf h (some t.nextAddr) v

/-- `ensureNode` when the id is already registered. -/
theorem ensureNode_found {α : Type} {t : Tree α} {id : String} {a : Addr}
    (h : t.nodesMap.lookup id = some a) (d : α) : ensureNode t id d = (a, t) := by
  unfold ensureNode
  rw [h]

/-- `ensureNode` when the id is not yet registered. -/
theorem ensureNode_missing {α : Type} {t : Tree α} {id : String}
    (h : t.nodesMap.lookup id = none) (d : α) :
    ensureNode t id d =
      (t.nextAddr,
        { root := t.root
          nodesMap := (id, t.nextAddr) :: t.nodesMap
          heap := (t.nextAddr, ⟨id, d, []⟩) :: t.heap
          nextAddr := t.nextAddr + 1 }) := by
  unfold ensureNode
  rw [h]

/-- `ensureNode` preserves well-formedness. -/
theorem wf_ensureNode {α : Type} {t : Tree α} (wf : WF t) (id : String) (d : α) :
    WF (ensureNode t id d).2 := by
  cases h : t.nodesMap.lookup id with
  | some a => rw [ensureNode_found h]; exact wf
  | none => rw [ensureNode_missing h]; exact wf_consFresh wf h t.root d

/-- After `ensureNode`, the id is registered at the returned address. -/
theorem ensureNode_lookup_self {α : Type} (t : Tree α) (id : String) (d : α) :
    ((ensureNode t id d).2).nodesMap.lookup id = some (ensureNode t id d).1 := by
  cases h : t.nodesMap.lookup id with
  | some a => rw [ensureNode_found h]; exact h
  | none =>
      rw [ensureNode_missing h]
      show List.lookup id ((id, t.nextAddr) :: t.nodesMap) = some t.nextAddr
      rw [lookup_cons_eq, if_pos rfl]

/-- `ensureNode` does not disturb the registration of any other id. -/
theorem ensureNode_lookup_other {α : Type} {t : Tree α} {id id' : String}
    (h : id' ≠ id) (d : α) :
    ((ensureNode t id d).2).nodesMap.lookup id' = t.nodesMap.lookup id' := by
  cases hh : t.nodesMap.lookup id with
  | some a => rw [ensureNode_found hh]
  | none =>
      rw [ensureNode_missing hh]
      show List.lookup id' ((id, t.nextAddr) :: t.nodesMap) = _
      rw [lookup_cons_eq, if_neg h]

/-- `ensureNode` does not disturb any node already on the heap. -/
theorem ensureNode_heap_old {α : Type} {t : Tree α} (wf : WF t) {a : Addr} {n : Node α}
    (hn : t.heap.lookup a = some n) (id : String) (d : α) :
    ((ensureNode t id d).2).heap.lookup a = some n := by
  cases hh : t.nodesMap.lookup id with
  | some a' => rw [ensureNode_found hh]; exact hn
  | none =>
      rw [ensureNode_missing hh]
      show List.lookup a ((t.nextAddr, (⟨id, d, []⟩ : Node α)) :: t.heap) = some n
      have hlt : a < t.nextAddr := wf.heap_lt (show (t.heap.lookup a).isSome by simp [hn])
      rw [lookup_cons_eq, if_neg (Nat.ne_of_lt hlt)]
      exact hn

/-- When `ensureNode` creates the node, it is on the heap with the given
id and payload and no children. -/
theorem ensureNode_heap_new {α : Type} {t : Tree α} {id : String}
    (h : t.nodesMap.lookup id = none) (d : α) :
    ((ensureNode t id d).2).heap.lookup (ensureNode t id d).1 = some ⟨id, d, []⟩ := by
  rw [ensureNode_missing h]
  show List.lookup t.nextAddr ((t.nextAddr, (⟨id, d, []⟩ : Node α)) :: t.heap)
    = some ⟨id, d, []⟩
  rw [lookup_cons_eq, if_pos rfl]

/-- `addNode` preserves well-formedness. -/
theorem wf_addNode {α : Type} [Inhabited α] {t : Tree α} (wf : WF t) (p c : String)
    (v : α) : WF (addNode t p c v) := by
  have wf2 : WF (ensureNode (ensureNode t p default).2 c v).2 :=
    wf_ensureNode (wf_ensureNode wf p default) c v
  show WF (
    if (ensureNode (ensureNode t p default).2 c v).1 ∈
        (getNode (ensureNode (ensureNode t p default).2 c v).2
          (ensureNode t p default).1).children
    then (ensureNode (ensureNode t p default).2 c v).2
    else { (ensureNode (ensureNode t p default).2 c v).2 with
           heap := updEntry
             (fun n => ⟨n.id, n.data,
               n.children ++ [(ensureNode (ensureNode t p default).2 c v).1]⟩)
             (ensureNode t p default).1
             (ensureNode (ensureNode t p default).2 c v).2.heap })
  by_cases hmem : (ensureNode (ensureNode t p default).2 c v).1 ∈
      (getNode (ensureNode (ensureNode t p default).2 c v).2
        (ensureNode t p default).1).children
  · rw [if_pos hmem]
    exact wf2
  · rw [if_neg hmem]
    refine wf_updEntry wf2 _ _ (fun n => rfl) ?_
    intro n hn
    have hget : getNode (ensureNode (ensureNode t p default).2 c v).2
        (ensureNode t p default).1 = n := by
      unfold getNode
      rw [hn]
      rfl
    have hnotin : (ensureNode (ensureNode t p default).2 c v).1 ∉ n.children :=
      fun hx => hmem (hget ▸ hx)
    have nd := wf2.children_nodup hn
    show (n.children ++ [(ensureNode (ensureNode t p default).2 c v).1]).Nodup
    simp [List.nodup_append, nd, hnotin]

/-- Every construction call preserves well-formedness. -/
theorem wf_applyOp {α : Type} [Inhabited α] {t : Tree α} (wf : WF t) (op : Op α) :
    WF (applyOp t op) := by
  cases op with
  | croot id v => exact wf_createRoot wf id v
  | add p c v => exact wf_addNode wf p c v

/-- Any sequence of construction calls preserves well-formedness. -/
theorem wf_applyOps {α : Type} [Inhabited α] (ops : List (Op α)) :
    ∀ t : Tree α, WF t → WF (applyOps t ops) := by
  induction ops with
  | nil => intro t wf; exact wf
  | cons op rest ih => intro t wf; exact ih _ (wf_applyOp wf op)

/-- Every tree built from the empty tree by construction calls is well formed. -/
theorem wf_built {α : Type} [Inhabited α] (ops : List (Op α)) :
    WF (applyOps (Tree.empty α) ops) :=
  wf_applyOps ops _ (wf_empty α)

/-- `createRoot` on an already-registered id. -/
theorem createRoot_found {α : Type} {t : Tree α} {id : String} {a : Addr}
    (h : t.nodesMap.lookup id = some a) (v : α) :
    createRoot t id v =
      { root := some a
        nodesMap := t.nodesMap
        heap := updEntry (fun n => ⟨n.id, v, n.children⟩) a t.heap
        nextAddr := t.nextAddr } := by
  unfold createRoot
  rw [h]

/-- `createRoot` on an unregistered id. -/
theorem createRoot_missing {α : Type} {t : Tree α} {id : String}
    (h : t.nodesMap.lookup id = none) (v : α) :
    createRoot t id v =
      { root := some t.nextAddr
        nodesMap := (id, t.nextAddr) :: t.nodesMap
        heap := (t.nextAddr, ⟨id, v, []⟩) :: t.heap
        nextAddr := t.nextAddr + 1 } := by
  unfold createRoot
  rw [h]

/-- `ensureNode` keeps any established registration. -/
theorem ensureNode_lookup_keep {α : Type} {t : Tree α} {id' : String} {a : Addr}
    (h : t.nodesMap.lookup id' = some a) (id : String) (d : α) :
    ((ensureNode t id d).2).nodesMap.lookup id' = some a := by
  cases hh : t.nodesMap.lookup id with
  | some a' => rw [ensureNode_found hh]; exact h
  | none =>
      have hne : id' ≠ id := by
        intro heq
        rw [heq, hh] at h
        exact Option.noConfusion h
      rw [ensureNode_lookup_other hne]
      exact h

/-- In-place updates that keep each node's payload keep every
registered payload. -/
theorem payload_updEntry {α : Type} (t : Tree α) (a : Addr) (f : Node α → Node α)
    (hdata : ∀ n, (f n).data = n.data) (id : String) :
    payloadOf { t with heap := updEntry f a t.heap } id = payloadOf t id := by
  show (t.nodesMap.lookup id).bind
        (fun a' => ((updEntry f a t.heap).lookup a').map (fun n => n.data))
      = (t.nodesMap.lookup id).bind
        (fun a' => (t.heap.lookup a').map (fun n => n.data))
  cases h : t.nodesMap.lookup id with
  | none => rfl
  | some a' =>
      show ((updEntry f a t.heap).lookup a').map (fun n => n.data)
        = (t.heap.lookup a').map (fun n => n.data)
      rw [lookup_updEntry]
      by_cases h' : a' = a
      · rw [if_pos h']
        cases hb : t.heap.lookup a' with
        | none => rfl
        | some n =>
            show some (f n).data = some n.data
            rw [hdata n]
      · rw [if_neg h']

/-- The final linking step of `addNode` never changes a payload: the
payload after `addNode` is the payload after the two "ensure" steps. -/
theorem payloadOf_addNode {α : Type} [Inhabited α] (t : Tree α) (p c : String)
    (v : α) (id : String) :
    payloadOf (addNode t p c v) id =
      payloadOf (ensureNode (ensureNode t p default).2 c v).2 id := by
  show payloadOf (
    if (ensureNode (ensureNode t p default).2 c v).1 ∈
        (getNode (ensureNode (ensureNode t p default).2 c v).2
          (ensureNode t p default).1).children
    then (ensureNode (ensureNode t p default).2 c v).2
    else { (ensureNode (ensureNode t p default).2 c v).2 with
           heap := updEntry
             (fun n => ⟨n.id, n.data,
               n.children ++ [(ensureNode (ensureNode t p default).2 c v).1]⟩)
             (ensureNode t p default).1
             (ensureNode (ensureNode t p default).2 c v).2.heap }) id = _
  by_cases hmem : (ensureNode (ensureNode t p default).2 c v).1 ∈
      (getNode (ensureNode (ensureNode t p default).2 c v).2
        (ensureNode t p default).1).children
  · rw [if_pos hmem]
  · rw [if_neg hmem]
    exact payload_updEntry (ensureNode (ensureNode t p default).2 c v).2
      (ensureNode t p default).1
      (fun n => ⟨n.id, n.data,
        n.children ++ [(ensureNode (ensureNode t p default).2 c v).1]⟩)
      (fun n => rfl) id

/-- `ensureNode` keeps every established payload. -/
theorem payload_ensureNode_keep {α : Type} {t : Tree α} (wf : WF t) {id' : String}
    {d : α} (h : payloadOf t id' = some d) (id : String) (dd : α) :
    payloadOf (ensureNode t id dd).2 id' = some d := by
  cases ha : t.nodesMap.lookup id' with
  | none =>
      unfold payloadOf at h
      rw [ha] at h
      exact absurd h (by simp)
  | some a =>
      have h1 : (t.heap.lookup a).map (fun n => n.data) = some d := by
        unfold payloadOf at h
        rw [ha] at h
        exact h
      cases hb : t.heap.lookup a with
      | none => rw [hb] at h1; exact absurd h1 (by simp)
      | some n =>
          rw [hb] at h1
          have h2 : ((ensureNode t id dd).2).nodesMap.lookup id' = some a :=
            ensureNode_lookup_keep ha id dd
          have h3 : ((ensureNode t id dd).2).heap.lookup a = some n :=
            ensureNode_heap_old wf hb id dd
          show ((ensureNode t id dd).2.nodesMap.lookup id').bind
            (fun a' => ((ensureNode t id dd).2.heap.lookup a').map (fun n => n.data))
            = some d
          rw [h2]
          show ((ensureNode t id dd).2.heap.lookup a).map (fun n => n.data) = some d
          rw [h3]
          exact h1

/-- When the child id is new and distinct from the parent id, `addNode`
materialises the child with the supplied payload. -/
theorem addNode_payload_new {α : Type} [Inhabited α] {t : Tree α} {p c : String}
    (hpc : p ≠ c) (hc : t.nodesMap.lookup c = none) (v : α) :
    payloadOf (addNode t p c v) c = some v := by
  rw [payloadOf_addNode]
  have h1 : ((ensureNode t p default).2).nodesMap.lookup c = none := by
    rw [ensureNode_lookup_other (Ne.symm hpc)]
    exact hc
  show ((ensureNode (ensureNode t p default).2 c v).2.nodesMap.lookup c).bind
    (fun a' => ((ensureNode (ensureNode t p default).2 c v).2.heap.lookup a').map
      (fun n => n.data)) = some v
  rw [ensureNode_lookup_self]
  show ((ensureNode (ensureNode t p default).2 c v).2.heap.lookup
      (ensureNode (ensureNode t p default).2 c v).1).map (fun n => n.data) = some v
  rw [ensureNode_heap_new h1]
  rfl

/-- `addNode` keeps the payload of an already-materialised child. -/
theorem addNode_payload_keep {α : Type} [Inhabited α] {t : Tree α} (wf : WF t)
    {c : String} {d : α} (h : payloadOf t c = some d) (p : String) (v : α) :
    payloadOf (addNode t p c v) c = some d := by
  rw [payloadOf_addNode]
  exact payload_ensureNode_keep (wf_ensureNode wf p default)
    (payload_ensureNode_keep wf h p default) c v

/-- `findNode` is exactly the registry lookup. -/
theorem findNode_eq {α : Type} (t : Tree α) (id : String) :
    findNode t id = t.nodesMap.lookup id := by
  unfold findNode
  cases h : t.nodesMap.lookup id <;> rfl

/-- C2 (corrected): in `addNode(p, c, v)` with `p ≠ c`, a previously absent
child is materialised with payload `v`; a pre-existing child keeps its
payload, and `v` is discarded — so `link(p,c,v1)` then `link(p,c,v2)` over
an absent `c` leaves `c`'s payload `v1`.  (The `p ≠ c` proviso is forced:
when `p = c` and the id is absent, the parent-ensuring step materialises
the node with the default payload first, discarding `v`.) -/
theorem spec_C2 {α : Type} [Inhabited α] (ops : List (Op α)) (p c : String)
    (v₁ v₂ : α) (hpc : p ≠ c) :
    ((applyOps (Tree.empty α) ops).nodesMap.lookup c = none →
      payloadOf (addNode (applyOps (Tree.empty α) ops) p c v₁) c = some v₁ ∧
      payloadOf (addNode (addNode (applyOps (Tree.empty α) ops) p c v₁) p c v₂) c
        = some v₁) ∧
    (∀ d, payloadOf (applyOps (Tree.empty α) ops) c = some d →
      payloadOf (addNode (applyOps (Tree.empty α) ops) p c v₁) c = some d) := by
  constructor
  · intro hc
    have hnew : payloadOf (addNode (applyOps (Tree.empty α) ops) p c v₁) c = some v₁ :=
      addNode_payload_new hpc hc v₁
    exact ⟨hnew,
      addNode_payload_keep (wf_addNode (wf_built ops) p c v₁) hnew p v₂⟩
  · intro d hd
    exact addNode_payload_keep (wf_built ops) hd p v₁

/-- C2 counterexample: `addNode("x", "x", "hello")` on an empty graph
materialises node `"x"` with the default (empty) payload, not `"hello"`,
although no node with the child id existed before the call. -/
theorem spec_C2_cex :
    (Tree.empty String).nodesMap.lookup "x" = none ∧
    payloadOf (addNode (Tree.empty String) "x" "x" "hello") "x" = some "" ∧
    ("" : String) ≠ "hello" := by
  refine ⟨rfl, by decide, by decide⟩

/-- C2 witness: the amended claim at a concrete input. -/
theorem spec_C2_witness :
    ("p" : String) ≠ "c" ∧
    (applyOps (Tree.empty String) []).nodesMap.lookup "c" = none ∧
    payloadOf (addNode (applyOps (Tree.empty String) []) "p" "c" "v1") "c" = some "v1" ∧
    payloadOf (addNode (addNode (applyOps (Tree.empty String) []) "p" "c" "v1")
      "p" "c" "v2") "c" = some "v1" :=
  ⟨by decide, rfl,
    ((spec_C2 [] "p" "c" "v1" "v2" (by decide)).1 rfl).1,
    ((spec_C2 [] "p" "c" "v1" "v2" (by decide)).1 rfl).2⟩

/-- C5 (confirmed): after any sequence of `createRoot`/`addNode` calls on a
fresh graph, no node's children list contains the same pointer twice. -/
theorem spec_C5 {α : Type} [Inhabited α] (ops : List (Op α)) (a : Addr) (n : Node α)
    (h : (applyOps (Tree.empty α) ops).heap.lookup a = some n) :
    n.children.Nodup :=
  (wf_built ops).children_nodup h

/-- C5 witness: linking the same pair twice leaves a single reference. -/
theorem spec_C5_witness :
    (applyOps (Tree.empty String) [Op.add "p" "c" "x", Op.add "p" "c" "y"]).heap.lookup 1
      = some ⟨"p", "", [2]⟩ ∧
    ((⟨"p", "", [2]⟩ : Node String).children).Nodup :=
  ⟨by decide,
    spec_C5 [Op.add "p" "c" "x", Op.add "p" "c" "y"] 1 ⟨"p", "", [2]⟩ (by decide)⟩

/-- C6 (confirmed): `createRoot(id, value)` overwrites the payload of an
existing node with that id and makes it root (same node instance), or
materialises and registers a fresh node with that id and payload and makes
it root; the registration of every other id — in particular the previous
root's — is untouched. -/
theorem spec_C6 {α : Type} [Inhabited α] (ops : List (Op α)) (id : String) (v : α) :
    (∃ a n, (createRoot (applyOps (Tree.empty α) ops) id v).root = some a ∧
      (createRoot (applyOps (Tree.empty α) ops) id v).nodesMap.lookup id = some a ∧
      (createRoot (applyOps (Tree.empty α) ops) id v).heap.lookup a = some n ∧
      n.id = id ∧ n.data = v) ∧
    (∀ a₀, (applyOps (Tree.empty α) ops).nodesMap.lookup id = some a₀ →
      (createRoot (applyOps (Tree.empty α) ops) id v).root = some a₀) ∧
    (∀ id', id' ≠ id →
      (createRoot (applyOps (Tree.empty α) ops) id v).nodesMap.lookup id'
        = (applyOps (Tree.empty α) ops).nodesMap.lookup id') := by
  have wf : WF (applyOps (Tree.empty α) ops) := wf_built ops
  set t := applyOps (Tree.empty α) ops with ht
  cases h : t.nodesMap.lookup id with
  | some a =>
      obtain ⟨n, hn, hnid⟩ := wf.map_to_heap h
      rw [createRoot_found h]
      refine ⟨⟨a, ⟨n.id, v, n.children⟩, rfl, h, ?_, hnid, rfl⟩, ?_, ?_⟩
      · show (updEntry (fun n => ⟨n.id, v, n.children⟩) a t.heap).lookup a
          = some ⟨n.id, v, n.children⟩
        rw [lookup_updEntry, if_pos rfl, hn]
        rfl
      · intro a₀ h₀
        obtain rfl := Option.some.inj h₀
        rfl
      · intro id' hne
        rfl
  | none =>
      rw [createRoot_missing h]
      refine ⟨⟨t.nextAddr, ⟨id, v, []⟩, rfl, ?_, ?_, rfl, rfl⟩, ?_, ?_⟩
      · show List.lookup id ((id, t.nextAddr) :: t.nodesMap) = some t.nextAddr
        rw [lookup_cons_eq, if_pos rfl]
      · show List.lookup t.nextAddr ((t.nextAddr, (⟨id, v, []⟩ : Node α)) :: t.heap)
          = some ⟨id, v, []⟩
        rw [lookup_cons_eq, if_pos rfl]
      · intro a₀ h₀
        exact Option.noConfusion h₀
      · intro id' hne
        show List.lookup id' ((id, t.nextAddr) :: t.nodesMap) = t.nodesMap.lookup id'
        rw [lookup_cons_eq, if_neg hne]

/-- C6 witness: redesignating an existing id as root at a concrete input. -/
theorem spec_C6_witness :
    (applyOps (Tree.empty String) [Op.croot "r" "a", Op.croot "s" "b"]).nodesMap.lookup "r"
      = some 1 ∧
    (createRoot (applyOps (Tree.empty String) [Op.croot "r" "a", Op.croot "s" "b"])
      "r" "v").root = some 1 ∧
    (createRoot (applyOps (Tree.empty String) [Op.croot "r" "a", Op.croot "s" "b"])
      "r" "v").nodesMap.lookup "s" = some 2 :=
  ⟨by decide,
    (spec_C6 [Op.croot "r" "a", Op.croot "s" "b"] "r" "v").2.1 1 (by decide),
    ((spec_C6 [Op.croot "r" "a", Op.croot "s" "b"] "r" "v").2.2 "s"
      (by decide)).trans (by decide)⟩

/-- C7 (confirmed): in any graph built by construction calls, at most one
node instance carries a given id (two heap entries with the same id are the
same address), and `findNode` — a pure lookup — returns the same reference
on repeated calls. -/
theorem spec_C7 {α : Type} [Inhabited α] (ops : List (Op α)) :
    (∀ a₁ a₂ n₁ n₂, (applyOps (Tree.empty α) ops).heap.lookup a₁ = some n₁ →
      (applyOps (Tree.empty α) ops).heap.lookup a₂ = some n₂ →
      n₁.id = n₂.id → a₁ = a₂) ∧
    (∀ id a₁ a₂, findNode (applyOps (Tree.empty α) ops) id = some a₁ →
      findNode (applyOps (Tree.empty α) ops) id = some a₂ → a₁ = a₂) := by
  have wf : WF (applyOps (Tree.empty α) ops) := wf_built ops
  constructor
  · intro a₁ a₂ n₁ n₂ h₁ h₂ hid
    have m₁ := wf.heap_to_map h₁
    have m₂ := wf.heap_to_map h₂
    rw [hid] at m₁
    exact Option.some.inj (m₁.symm.trans m₂)
  · intro id a₁ a₂ h₁ h₂
    exact Option.some.inj (h₁.symm.trans h₂)

/-- C7 witness: two parents share the single node registered for "C". -/
theorem spec_C7_witness :
    (applyOps (Tree.empty String) [Op.add "A" "C" "x", Op.add "B" "C" "x"]).heap.lookup 2
      = some ⟨"C", "x", []⟩ ∧ (2 : Addr) = 2 :=
  ⟨by decide,
    (spec_C7 [Op.add "A" "C" "x", Op.add "B" "C" "x"]).1 2 2 ⟨"C", "x", []⟩ ⟨"C", "x", []⟩
      (by decide) (by decide) rfl⟩

/-- C9 (confirmed): the destructor's deletion sequence (one `delete` per
registry entry) hits every allocated node exactly once — it is
duplicate-free and covers exactly the heap's live addresses. -/
theorem spec_C9 {α : Type} [Inhabited α] (ops : List (Op α)) :
    (destroyedAddrs (applyOps (Tree.empty α) ops)).Nodup ∧
    ∀ a, a ∈ destroyedAddrs (applyOps (Tree.empty α) ops) ↔
      ((applyOps (Tree.empty α) ops).heap.lookup a).isSome := by
  have wf : WF (applyOps (Tree.empty α) ops) := wf_built ops
  set t := applyOps (Tree.empty α) ops with ht
  constructor
  · exact wf.addrs_nodup
  · intro a
    constructor
    · intro hmem
      have hmem' : a ∈ t.nodesMap.map Prod.snd := hmem
      obtain ⟨i, hi⟩ := (mem_map_snd_iff _ _).mp hmem'
      exact wf.mapAddr_isSome hi
    · intro hsome
      obtain ⟨n, hn⟩ := Option.isSome_iff_exists.mp hsome
      have hm := wf.heap_to_map hn
      show a ∈ t.nodesMap.map (fun p => p.2)
      exact (mem_map_snd_iff _ _).mpr ⟨n.id, lookup_mem hm⟩

/-- C9 witness: a shared child is deleted once in a concrete graph. -/
theorem spec_C9_witness :
    (destroyedAddrs (applyOps (Tree.empty String)
      [Op.add "A" "C" "x", Op.add "B" "C" "x"])).Nodup ∧
    (2 : Addr) ∈ destroyedAddrs (applyOps (Tree.empty String)
      [Op.add "A" "C" "x", Op.add "B" "C" "x"]) :=
  ⟨(spec_C9 [Op.add "A" "C" "x", Op.add "B" "C" "x"]).1,
    ((spec_C9 [Op.add "A" "C" "x", Op.add "B" "C" "x"]).2 2).mpr (by decide)⟩

/-- The identity formatter used for `T = std::string`. -/
def fmtId : String → String := fun s => s

/-- A small concrete graph: root "1" with the single child "2". -/
def sampleTree : Tree String :=
  applyOps (Tree.empty String) [Op.croot "1" "A", Op.add "1" "2" "B"]

/-- C3 (amended, proved): an in-range-typed but out-of-range digit input
that fits the machine int draws the out-of-range notice and leaves the
machine at the same node, continuing with the remaining input. -/
theorem spec_C3_amended {α : Type} [Inhabited α] (fmt : α → String) (t : Tree α)
    (cur : Addr) (line : String) (rest : List String)
    (hch : (getNode t cur).children ≠ [])
    (hne : trim_copy line ≠ "")
    (hdig : (trim_copy line).toList.all isDigitChar = true)
    (hfit : digitsVal (trim_copy line) ≤ intMax)
    (hoor : digitsVal (trim_copy line) < 1 ∨
      digitsVal (trim_copy line) > (getNode t cur).children.length) :
    playLoop fmt t (line :: rest) cur =
      (nodeHeader fmt t cur ++
        "Choice out of range. Please select a valid option."
          :: (playLoop fmt t rest cur).1,
       (playLoop fmt t rest cur).2) := by
  have hch' : (getNode t cur).children.isEmpty = false := by
    simpa [List.isEmpty_iff] using hch
  have hfit' : ¬ digitsVal (trim_copy line) > intMax := by omega
  simp only [playLoop, hch', Bool.false_eq_true, if_false, hdig, Bool.not_true,
    if_neg hne, if_neg hfit', if_pos hoor]

/-- C3 counterexample: an all-digit input whose value exceeds the number of
children but overflows `int` draws the invalid-selection notice, not the
out-of-range notice, although the claim's premise holds for it. -/
theorem spec_C3_cex :
    (getNode sampleTree 1).children ≠ [] ∧
    trim_copy "99999999999999999999" = "99999999999999999999" ∧
    ("99999999999999999999" : String).toList.all isDigitChar = true ∧
    digitsVal "99999999999999999999" > (getNode sampleTree 1).children.length ∧
    "Choice out of range. Please select a valid option."
      ∉ (playLoop fmtId sampleTree ["99999999999999999999"] 1).1 ∧
    "Invalid selection. Please enter a valid number."
      ∈ (playLoop fmtId sampleTree ["99999999999999999999"] 1).1 := by
  decide

/-- C3 witness: input "0" at the sample tree draws the out-of-range notice
and the loop continues at the same node. -/
theorem spec_C3_witness :
    playLoop fmtId sampleTree ["0"] 1 =
      (nodeHeader fmtId sampleTree 1 ++
        "Choice out of range. Please select a valid option."
          :: (playLoop fmtId sampleTree [] 1).1,
       (playLoop fmtId sampleTree [] 1).2) :=
  spec_C3_amended fmtId sampleTree 1 "0" [] (by decide) (by decide) (by decide)
    (by decide) (by decide)

/-- C10 (confirmed): an all-digit input overflowing the machine int draws
the recoverable "valid number" notice and the machine stays at the same
node, continuing with the remaining input. -/
theorem spec_C10 {α : Type} [Inhabited α] (fmt : α → String) (t : Tree α)
    (cur : Addr) (line : String) (rest : List String)
    (hch : (getNode t cur).children ≠ [])
    (hne : trim_copy line ≠ "")
    (hdig : (trim_copy line).toList.all isDigitChar = true)
    (hover : digitsVal (trim_copy line) > intMax) :
    playLoop fmt t (line :: rest) cur =
      (nodeHeader fmt t cur ++
        "Invalid selection. Please enter a valid number."
          :: (playLoop fmt t rest cur).1,
       (playLoop fmt t rest cur).2) := by
  have hch' : (getNode t cur).children.isEmpty = false := by
    simpa [List.isEmpty_iff] using hch
  simp only [playLoop, hch', Bool.false_eq_true, if_false, hdig, Bool.not_true,
    if_neg hne, if_pos hover]

/-- C10 witness: a 20-digit input at the sample tree draws the overflow
notice and the loop goes on at the same node. -/
theorem spec_C10_witness :
    playLoop fmtId sampleTree ["99999999999999999999"] 1 =
      (nodeHeader fmtId sampleTree 1 ++
        "Invalid selection. Please enter a valid number."
          :: (playLoop fmtId sampleTree [] 1).1,
       (playLoop fmtId sampleTree [] 1).2) :=
  spec_C10 fmtId sampleTree 1 "99999999999999999999" [] (by decide) (by decide)
    (by decide) (by decide)

/-- C4 (amended, proved): a session with a root always ends with the
completion banner; a rootless session emits only the no-root notice. -/
theorem spec_C4_amended {α : Type} [Inhabited α] (fmt : α → String) (t : Tree α)
    (inputs : List String) :
    (t.root = none → (playGame fmt t inputs).1 = ["No root node. Cannot play game."]) ∧
    (∀ r, t.root = some r →
      ((playGame fmt t inputs).1).getLast? = some "===== Adventure Complete =====") := by
  constructor
  · intro h
    unfold playGame
    rw [h]
  · intro r h
    unfold playGame
    rw [h]
    exact List.getLast?_concat _

/-- C4 counterexample: with no root, the session emits only the no-root
notice; the completion notice never appears. -/
theorem spec_C4_cex :
    (playGame fmtId (Tree.empty String) []).1 = ["No root node. Cannot play game."] ∧
    "===== Adventure Complete =====" ∉ (playGame fmtId (Tree.empty String) []).1 := by
  decide

/-- C4 witness: the amended claim at the sample tree. -/
theorem spec_C4_witness :
    sampleTree.root = some 1 ∧
    ((playGame fmtId sampleTree ["60"]).1).getLast?
      = some "===== Adventure Complete =====" :=
  ⟨by decide, (spec_C4_amended fmtId sampleTree ["60"]).2 1 (by decide)⟩

/-- The play loop never modifies the tree. -/
theorem playLoop_tree {α : Type} [Inhabited α] (fmt : α → String) (t : Tree α) :
    ∀ (inputs : List String) (cur : Addr), (playLoop fmt t inputs cur).2 = t := by
  intro inputs
  induction inputs with
  | nil =>
      intro cur
      simp only [playLoop]
      split <;> rfl
  | cons line rest ih =>
      intro cur
      simp only [playLoop]
      repeat' split
      all_goals simp [ih]

/-- Every entry `printAll` iterates over carries a registered id. -/
theorem sortedEntries_fst_mem {α : Type} (t : Tree α) {p : String × Nat}
    (hp : p ∈ sortedEntries t) : p.1 ∈ t.nodesMap.map (fun q => q.1) := by
  have hmem : p ∈ (t.nodesMap.map (fun q => q.1)).map (fun s => (s, idKey s)) :=
    (List.perm_insertionSort entryR _).mem_iff.mp hp
  obtain ⟨s, hs, rfl⟩ := List.mem_map.mp hmem
  exact hs

/-- The printing loop leaves the tree unchanged as long as every entry's id
is a key of the registry (so `operator[]` never inserts). -/
theorem printAllLoop_tree {α : Type} [Inhabited α] (fmt : α → String) :
    ∀ (entries : List (String × Nat)) (t : Tree α) (acc : List String),
      (∀ p ∈ entries, p.1 ∈ t.nodesMap.map (fun q => q.1)) →
      (printAllLoop fmt entries t acc).2 = t := by
  intro entries
  induction entries with
  | nil => intro t acc h; rfl
  | cons e rest ih =>
      intro t acc h
      have he : e.1 ∈ t.nodesMap.map Prod.fst := h e (List.mem_cons_self _ _)
      obtain ⟨a, ha⟩ := Option.isSome_iff_exists.mp ((lookup_isSome_iff _ _).mpr he)
      simp only [printAllLoop]
      rw [show mapBracket t.nodesMap e.1 = (a, t.nodesMap) from by
        unfold mapBracket; rw [ha]]
      exact ih t _ (fun p hp => h p (List.mem_cons_of_mem _ hp))

/-- C8 (confirmed): `playGame` (for every input sequence, end of input
included) and `printAll` leave the graph exactly as it was: registry, root
and heap (hence every payload and children list) are unchanged. -/
theorem spec_C8 {α : Type} [Inhabited α] (fmt : α → String) (t : Tree α)
    (inputs : List String) :
    (playGame fmt t inputs).2 = t ∧ (printAll fmt t).2 = t := by
  constructor
  · unfold playGame
    cases h : t.root with
    | none => rfl
    | some r => exact playLoop_tree fmt t inputs r
  · unfold printAll
    cases he : t.nodesMap.isEmpty with
    | true => rfl
    | false =>
        simp only [Bool.false_eq_true, if_false]
        exact printAllLoop_tree fmt (sortedEntries t) t []
          (fun p hp => sortedEntries_fst_mem t hp)

/-- C1 (amended, proved): `printAll` emits ids in nondecreasing order of the
pair (numeric key, id): the key of an all-digit id is its value capped at
`LLONG_MAX` on overflow, every other id gets `LLONG_MAX`; ties are broken
by lexicographic comparison.  The emitted ids are a permutation of the
registry's ids. -/
theorem spec_C1_amended {α : Type} (t : Tree α) :
    (printAllIds t).Pairwise
      (fun x y => idKey x < idKey y ∨ (idKey x = idKey y ∧ strLe x y = true)) ∧
    (printAllIds t).Perm (t.nodesMap.map (fun q => q.1)) := by
  constructor
  · have hs : List.Sorted entryR (sortedEntries t) :=
      List.sorted_insertionSort entryR _
    have hmemkey : ∀ p ∈ sortedEntries t, p.2 = idKey p.1 := by
      intro p hp
      have hmem : p ∈ (t.nodesMap.map (fun q => q.1)).map (fun s => (s, idKey s)) :=
        (List.perm_insertionSort entryR _).mem_iff.mp hp
      obtain ⟨s, hs', rfl⟩ := List.mem_map.mp hmem
      rfl
    unfold printAllIds
    rw [List.pairwise_map]
    refine List.Pairwise.imp_of_mem ?_ hs
    intro a b ha hb hab
    rcases hab with h | ⟨h1, h2⟩
    · exact Or.inl (by rw [← hmemkey a ha, ← hmemkey b hb]; exact h)
    · exact Or.inr ⟨by rw [← hmemkey a ha, ← hmemkey b hb]; exact h1, h2⟩
  · unfold printAllIds sortedEntries
    simpa [List.map_map, Function.comp] using
      List.Perm.map (fun p : String × Nat => p.1)
        (List.perm_insertionSort entryR
          ((t.nodesMap.map (fun q => q.1)).map (fun s => (s, idKey s))))

/-- C1 counterexample: the non-numeric id "!" is emitted before the numeric
(overflowing) id, so non-numeric ids do not all come after numeric ids. -/
theorem spec_C1_cex :
    printAllIds (applyOps (Tree.empty String)
      [Op.croot "!" "a", Op.croot "99999999999999999999" "b"])
      = ["!", "99999999999999999999"] ∧
    isNumericId "!" = false ∧
    isNumericId "99999999999999999999" = true := by
  decide

end StoryTree
